import Mathlib

/-!
Verification of the FRB candidate-search pipeline (`frb/search.py`,
`frb/utils.py`) against its natural-language specification.

The Python code is shallowly embedded over exact rationals `ℚ`:

* pure numeric helpers become Lean functions on `ℚ`, `ℤ`, `ℕ`;
* numpy arrays become `List`s (images are `List (List ℚ)` in row-major
  order, matching numpy's layout);
* code that can raise becomes `Option`/`Except`;
* values produced by external numeric libraries (the Levenberg–Marquardt
  solver of `astropy`, `np.cos`, `np.rad2deg`) are carried as explicit
  inputs: the decision logic applied to them is translated literally.
-/

/-! ## Candidate builder (`search.py`: `search_candidates`,
`search_candidates_clf`, `search_candidates_ell` candidate construction)

All three search strategies construct
`Candidate(t_0 + max_pos[1] * TimeDelta(d_t, format='sec'), max_pos[0] * float(d_dm))`
from a peak position `(row, col) = (max_pos[0], max_pos[1])`.
A candidate record is modelled as the pair `(time, dm)`. -/

/-- Shared conversion of a peak position to physical units:
`time = t0 + col * d_t`, `dm = row * d_dm`. -/
def buildCandidate (t0 d_t d_dm row col : ℚ) : ℚ × ℚ :=
  (t0 + col * d_t, row * d_dm)

/-- Candidate construction exactly as written in `search_candidates`
(size-threshold strategy); the peak is an integer pixel `(row, col)`. -/
def candidateSized (t0 d_t d_dm : ℚ) (peak : ℕ × ℕ) : ℚ × ℚ :=
  (t0 + (peak.2 : ℚ) * d_t, (peak.1 : ℚ) * d_dm)

/-- Candidate construction exactly as written in `search_candidates_clf`:
the peak is `(gg.x_mean + prop.bbox[0], gg.y_mean + prop.bbox[1])`. -/
def candidateClf (t0 d_t d_dm x_mean y_mean : ℚ) (bbox0 bbox1 : ℕ) : ℚ × ℚ :=
  (t0 + (y_mean + (bbox1 : ℚ)) * d_t, (x_mean + (bbox0 : ℚ)) * d_dm)

/-- Candidate construction exactly as written in `search_candidates_ell`:
the peak is `(gg.x_mean + prop.bbox[0], gg.y_mean + prop.bbox[1])`. -/
def candidateEll (t0 d_t d_dm x_mean y_mean : ℚ) (bbox0 bbox1 : ℕ) : ℚ × ℚ :=
  (t0 + (y_mean + (bbox1 : ℚ)) * d_t, (x_mean + (bbox0 : ℚ)) * d_dm)

/-- Inverse of the candidate-building map as stated by the specification:
`col = (time - t0) / d_t`, `row = dm / d_dm`, returned as `(row, col)`. -/
def invertCandidate (t0 d_t d_dm : ℚ) (c : ℚ × ℚ) : ℚ × ℚ :=
  (c.2 / d_dm, (c.1 - t0) / d_t)

/-! ## Ellipse-shape acceptance test (`search.py`: `search_candidates_ell`)

The fitted `astropy` `Gaussian2D` model `gg` is carried as a record of the
parameter values the acceptance test reads.  `thetaCos` and `thetaDeg`
hold the values `np.cos(gg.theta)` and `np.rad2deg(gg.theta)` computed by
numpy from the fitted angle. -/

/-- Parameter values of a fitted 2D Gaussian ellipse, as read by the
classifier. -/
structure GaussFit where
  amplitude : ℚ
  x_mean : ℚ
  y_mean : ℚ
  x_stddev : ℚ
  y_stddev : ℚ
  thetaCos : ℚ
  thetaDeg : ℚ
deriving DecidableEq

/-- Configuration thresholds of the ellipse-shape strategy
(`x_stddev`, `x_cos_theta`, `y_to_x_stddev`, `theta_lims` arguments of
`search_candidates_ell`). -/
structure EllParams where
  x_stddev_min : ℚ
  x_cos_theta_min : ℚ
  y_to_x_stddev_max : ℚ
  theta_min : ℚ
  theta_max : ℚ
deriving DecidableEq

/-- Python float modulo with a positive divisor:
`x % y = x - y * floor(x / y)`. -/
def pymod (x y : ℚ) : ℚ := x - y * (⌊x / y⌋ : ℚ)

/-- The acceptance condition of `search_candidates_ell`, literally:
`abs(gg.x_stddev) > abs(x_stddev) and
 abs(gg.x_stddev * np.cos(gg.theta)) > x_cos_theta and
 abs(gg.y_stddev / gg.x_stddev) < y_to_x_stddev and
 gg.amplitude > amplitude and
 theta_lims[0] < np.rad2deg(gg.theta) % 180 < theta_lims[1]`. -/
def acceptEll (p : EllParams) (thr : ℚ) (g : GaussFit) : Bool :=
  decide (|g.x_stddev| > |p.x_stddev_min|) &&
  decide (|g.x_stddev * g.thetaCos| > p.x_cos_theta_min) &&
  decide (|g.y_stddev / g.x_stddev| < p.y_to_x_stddev_max) &&
  decide (g.amplitude > thr) &&
  decide (p.theta_min < pymod g.thetaDeg 180) &&
  decide (pymod g.thetaDeg 180 < p.theta_max)

/-- The acceptance condition as the specification words it: five
conditions, with `|x_stddev| > x_stddev_min` (no absolute value on the
threshold) and the angle in a closed interval `[theta_min, theta_max]`. -/
def AcceptEllSpec (p : EllParams) (thr : ℚ) (g : GaussFit) : Prop :=
  |g.x_stddev| > p.x_stddev_min ∧
  |g.x_stddev * g.thetaCos| > p.x_cos_theta_min ∧
  |g.y_stddev / g.x_stddev| < p.y_to_x_stddev_max ∧
  g.amplitude > thr ∧
  p.theta_min ≤ pymod g.thetaDeg 180 ∧ pymod g.thetaDeg 180 ≤ p.theta_max

/-! ## Ellipse-shape search (`search.py`: `search_candidates_ell`)

One labelled region is carried as the outcome of `fit_elliplse` on it
(`none` models `NoIntensityRegionException`) together with the bounding
box offsets `prop.bbox[0]`, `prop.bbox[1]` used for the peak position. -/

/-- A segmented region as consumed by `search_candidates_ell`: the fit
outcome and the bounding-box corner. -/
structure EllRegion where
  fit : Option GaussFit
  bbox0 : ℕ
  bbox1 : ℕ

/-- Amplitudes collected in the `amplitude is None` branch: one value per
region whose fit succeeds and whose amplitude is truthy
(`if gg.amplitude.value:`). -/
def truthyAmps (regions : List EllRegion) : List ℚ :=
  regions.filterMap (fun r =>
    r.fit.bind (fun g => if g.amplitude ≠ 0 then some g.amplitude else none))

/-- The body of `search_candidates_ell`.  `estimate` stands for
`find_clusters_ell_amplitudes`.  The local variable `amplitudes` is bound
only in the `amplitude is None` branch (modelled by the `Option`), yet the
histogram block `ax.hist(amplitudes, bins=300)` reads it unconditionally:
when it is unbound the call raises `UnboundLocalError`, modelled as
`Except.error`. -/
def searchCandidatesEll (estimate : List ℚ → ℚ) (p : EllParams)
    (t0 d_t d_dm : ℚ) (ampThr : Option ℚ) (regions : List EllRegion) :
    Except String (List (ℚ × ℚ)) :=
  let amplitudesVar : Option (List ℚ) :=
    match ampThr with
    | none => some (truthyAmps regions)
    | some _ => none
  let thr : ℚ :=
    match ampThr with
    | some a => a
    | none => estimate (truthyAmps regions)
  match amplitudesVar with
  | none => Except.error "UnboundLocalError: amplitudes"
  | some _ =>
      Except.ok (regions.filterMap (fun r =>
        r.fit.bind (fun g =>
          if acceptEll p thr g then
            some (candidateEll t0 d_t d_dm g.x_mean g.y_mean r.bbox0 r.bbox1)
          else
            none)))

/-! ## Background subtraction in the ellipse fitter (`search.py`:
`fit_elliplse`)

`fit_elliplse` starts from the region's intensity patch (here carried
already ravelled, row-major, as numpy's `data.ravel()` produces it) and
runs `data -= np.unique(sorted(data.ravel()))[1]`, raising
`NoIntensityRegionException` exactly on the `IndexError` of the index
`[1]`, then clips negatives to zero: `data[data < 0] = 0`. -/

/-- Sorted distinct intensity values of a patch
(`np.unique(sorted(data.ravel()))`). -/
def uniqueSorted (patch : List ℚ) : List ℚ :=
  List.insertionSort (· ≤ ·) patch.dedup

/-- Background subtraction step of `fit_elliplse`: subtract the
second-smallest distinct value and clip negatives to zero.  `none` models
the `IndexError` of `np.unique(...)[1]`, turned into
`NoIntensityRegionException` by the fitter. -/
def subClip (patch : List ℚ) : Option (List ℚ) :=
  ((uniqueSorted patch)[1]?).map (fun bg => patch.map (fun v => max (v - bg) 0))

/-- The fitter raises `NoIntensityRegionException` on this patch. -/
def RaisesNoIntensity (patch : List ℚ) : Prop := subClip patch = none

/-- The predicate the specification uses: after subtracting the
second-smallest distinct value and clipping, the patch contains no
positive intensity.  Vacuously true when the subtraction itself is
impossible (fewer than two distinct values). -/
def NoPositiveAfterSub (patch : List ℚ) : Prop :=
  ∀ l, subClip patch = some l → ∀ v ∈ l, v ≤ 0

/-! ## Noise-cluster selection in the threshold estimator (`utils.py`:
`find_clusters_ell_amplitudes`)

After DBSCAN, the code runs
`unique, unique_counts = np.unique(labels, return_counts=True)` and
`largest_cluster_data = data[labels == unique[np.argmax(unique_counts)]]`.
DBSCAN itself is external; its output label vector is the input here. -/

/-- Sorted distinct labels, as `np.unique` returns them. -/
def uniqueLabels (labels : List ℤ) : List ℤ :=
  List.insertionSort (· ≤ ·) labels.dedup

/-- First index of the maximum, as `np.argmax` returns it (`0` on an
empty list, where numpy instead errors). -/
def argmaxIdx (xs : List ℕ) : ℕ :=
  match xs.maximum with
  | none => 0
  | some m => xs.indexOf m

/-- The label whose points become `largest_cluster_data`:
`unique[np.argmax(unique_counts)]`. -/
def chosenLabel (labels : List ℤ) : Option ℤ :=
  (uniqueLabels labels)[argmaxIdx ((uniqueLabels labels).map
    (fun l => labels.count l))]?

/-- The amplitudes handed to the Rayleigh fit:
`data[labels == unique[np.argmax(unique_counts)]]`. -/
def largestClusterData (labels : List ℤ) (data : List ℚ) : List ℚ :=
  match chosenLabel labels with
  | none => []
  | some c => ((labels.zip data).filter (fun ld => ld.1 = c)).map (·.2)

/-! ## Size-threshold search (`search.py`: `search_candidates`)

The structured array `_objects` holds per-region label and bounding-box
extents `dx = stop[1] - start[1]`, `dy = stop[0] - start[0]`.  The image
and the label array produced by `scipy.ndimage.label` are carried as
row-major lists. -/

/-- One entry of the `_objects` structured array of `search_candidates`. -/
structure SizedObj where
  lab : ℕ
  dx : ℕ
  dy : ℕ
deriving DecidableEq

/-- The classification step of `search_candidates`:
`np.logical_and(_objects['dy'] > n_d_y, _objects['dx'] > n_d_x)`. -/
def acceptSized (n_d_x n_d_y : ℕ) (objs : List SizedObj) : List SizedObj :=
  objs.filter (fun o => decide (o.dy > n_d_y) && decide (o.dx > n_d_x))

/-- Intensity of a pixel of a row-major image (`0` outside bounds). -/
def pixAt (img : List (List ℚ)) (i j : ℕ) : ℚ := (img.getD i []).getD j 0

/-- Row-major positions of the pixels carrying a given label. -/
def labelPositions (labeled : List (List ℕ)) (lab : ℕ) : List (ℕ × ℕ) :=
  (labeled.enum.map (fun ir =>
    ir.2.enum.filterMap (fun jc =>
      if jc.2 = lab then some (ir.1, jc.1) else none))).flatten

/-- One step of the running first-maximum scan. -/
def bestOf (img : List (List ℚ)) : Option (ℕ × ℕ) → ℕ × ℕ → Option (ℕ × ℕ)
  | none, q => some q
  | some q0, q => if pixAt img q.1 q.2 > pixAt img q0.1 q0.2 then some q else some q0

/-- `scipy.ndimage.maximum_position(image, labels=labeled_array, index=lab)`:
the first (row-major) position of the maximum intensity among the pixels
labelled `lab`. -/
def maximumPosition (img : List (List ℚ)) (labeled : List (List ℕ))
    (lab : ℕ) : Option (ℕ × ℕ) :=
  (labelPositions labeled lab).foldl (bestOf img) none

/-- Ascending order of the two sort keys of
`np.lexsort((_objects['dx'], _objects['dy']))`: primary key `dy` (the last
key), secondary key `dx`. -/
def lexLe (a b : SizedObj) : Prop :=
  a.dy < b.dy ∨ (a.dy = b.dy ∧ a.dx ≤ b.dx)

instance : DecidableRel lexLe := fun a b => by
  unfold lexLe
  infer_instance

instance : IsTotal SizedObj lexLe :=
  ⟨fun a b => by
    unfold lexLe
    rcases lt_trichotomy a.dy b.dy with h | h | h
    · exact Or.inl (Or.inl h)
    · rcases le_total a.dx b.dx with h2 | h2
      · exact Or.inl (Or.inr ⟨h, h2⟩)
      · exact Or.inr (Or.inr ⟨h.symm, h2⟩)
    · exact Or.inr (Or.inl h)⟩

instance : IsTrans SizedObj lexLe :=
  ⟨fun a b c hab hbc => by
    unfold lexLe at *
    rcases hab with h1 | ⟨h1, h1d⟩ <;> rcases hbc with h2 | ⟨h2, h2d⟩
    · exact Or.inl (h1.trans h2)
    · exact Or.inl (h2 ▸ h1)
    · exact Or.inl (h1 ▸ h2)
    · exact Or.inr ⟨h1.trans h2, h1d.trans h2d⟩⟩

/-- The ranking step of `search_candidates`:
`_objects[np.lexsort((_objects['dx'], _objects['dy']))[::-1]]` — a stable
ascending sort by `(dy, dx)`, reversed. -/
def rankObjs (objs : List SizedObj) : List SizedObj :=
  (List.insertionSort lexLe objs).reverse

/-! ## Big-region removal in the preprocessor (`search.py`:
`create_ellipses`)

After labelling the opened big-threshold image, the code collects the
regions with `prop.area > max_prop_size` and runs, for each one,
`tdm_image[bb[0]:bb[2], bb[1]:bb[3]] = np.mean(tdm_image)` — note that
the mean is recomputed from the partially overwritten array at each
iteration.  Labelling itself is external; the list of region properties
(bounding box and area) is the input here. -/

/-- A half-open bounding box `[r0, r1) × [c0, c1)`, as
`skimage` `prop.bbox` provides it. -/
structure BBox where
  r0 : ℕ
  r1 : ℕ
  c0 : ℕ
  c1 : ℕ
deriving DecidableEq

/-- The two attributes of a `skimage` region the removal loop reads. -/
structure RegionProp where
  bbox : BBox
  area : ℕ
deriving DecidableEq

/-- Membership of a pixel position in a bounding box. -/
def InBBox (bb : BBox) (i j : ℕ) : Prop :=
  bb.r0 ≤ i ∧ i < bb.r1 ∧ bb.c0 ≤ j ∧ j < bb.c1

instance (bb : BBox) (i j : ℕ) : Decidable (InBBox bb i j) := by
  unfold InBBox
  infer_instance

/-- Sum of all pixels of an image. -/
def imgSum (img : List (List ℚ)) : ℚ := (img.map List.sum).sum

/-- Number of pixels of an image. -/
def imgCount (img : List (List ℚ)) : ℕ := (img.map List.length).sum

/-- `np.mean` of a whole image. -/
def npMean (img : List (List ℚ)) : ℚ := imgSum img / (imgCount img : ℕ)

/-- Overwrite the columns `[c0, c1)` of one row with `v`; `j` is the
index of the row's first element. -/
def fillRowFrom (c0 c1 : ℕ) (v : ℚ) : ℕ → List ℚ → List ℚ
  | _, [] => []
  | j, x :: xs =>
      (if c0 ≤ j ∧ j < c1 then v else x) :: fillRowFrom c0 c1 v (j + 1) xs

/-- Overwrite the rows `[r0, r1)` of an image within columns `[c0, c1)`;
`i` is the index of the first row. -/
def fillRowsFrom (bb : BBox) (v : ℚ) : ℕ → List (List ℚ) → List (List ℚ)
  | _, [] => []
  | i, row :: rows =>
      (if bb.r0 ≤ i ∧ i < bb.r1 then fillRowFrom bb.c0 bb.c1 v 0 row else row) ::
        fillRowsFrom bb v (i + 1) rows

/-- The slice assignment
`tdm_image[bb[0]:bb[2], bb[1]:bb[3]] = v`. -/
def fillBBox (img : List (List ℚ)) (bb : BBox) (v : ℚ) : List (List ℚ) :=
  fillRowsFrom bb v 0 img

/-- The regions collected in `big_sized_props`:
those with `prop.area > max_prop_size`. -/
def bigProps (maxSize : ℕ) (props : List RegionProp) : List RegionProp :=
  props.filter (fun p => decide (p.area > maxSize))

/-- The removal loop of `create_ellipses`: each oversized region's
bounding box is overwritten with `np.mean(tdm_image)` evaluated on the
array as it stands at that iteration. -/
def filterBigRegions (maxSize : ℕ) (props : List RegionProp)
    (img : List (List ℚ)) : List (List ℚ) :=
  (bigProps maxSize props).foldl (fun im p => fillBBox im p.bbox (npMean im)) img

/-! ## Theorems -/

/-- C5: every one of the three classifier strategies builds the candidate
as `time = t0 + col * d_t` and `dm = row * d_dm`; the conversion is one
and the same map `buildCandidate` in all three, with no divergent
rounding. -/
theorem candidate_conversion_identical (t0 d_t d_dm x_mean y_mean : ℚ)
    (r c b0 b1 : ℕ) :
    candidateSized t0 d_t d_dm (r, c) = buildCandidate t0 d_t d_dm (r : ℚ) (c : ℚ) ∧
    candidateClf t0 d_t d_dm x_mean y_mean b0 b1 =
      buildCandidate t0 d_t d_dm (x_mean + (b0 : ℚ)) (y_mean + (b1 : ℚ)) ∧
    candidateEll t0 d_t d_dm x_mean y_mean b0 b1 =
      candidateClf t0 d_t d_dm x_mean y_mean b0 b1 :=
  ⟨rfl, rfl, rfl⟩

/-- C9: the candidate-building map followed by the inverse map
`col = (time - t0) / d_t`, `row = dm / d_dm` recovers the original
`(row, col)` exactly (hence within any floating-point tolerance), whenever
`d_t` and `d_dm` are nonzero. -/
theorem candidate_roundtrip (t0 d_t d_dm row col : ℚ)
    (ht : d_t ≠ 0) (hd : d_dm ≠ 0) :
    invertCandidate t0 d_t d_dm (buildCandidate t0 d_t d_dm row col) =
      (row, col) := by
  unfold invertCandidate buildCandidate
  simp only [Prod.mk.injEq]
  constructor
  · field_simp
  · field_simp

/-- C9 witness: the round trip at `t0 = 0`, `d_t = 1`, `d_dm = 1`,
`(row, col) = (2, 3)`. -/
theorem candidate_roundtrip_witness :
    (1 : ℚ) ≠ 0 ∧
    invertCandidate 0 1 1 (buildCandidate 0 1 1 2 3) = (2, 3) :=
  ⟨by norm_num, candidate_roundtrip 0 1 1 2 3 (by norm_num) (by norm_num)⟩

/-- C3: when an amplitude threshold is supplied, `search_candidates_ell`
does not estimate a threshold, but it also never returns its candidate
list: the unconditional histogram block reads the local variable
`amplitudes`, which is bound only in the `amplitude is None` branch, so
the call raises `UnboundLocalError` — whatever the estimator, the
parameters and the regions are. -/
theorem searchEll_supplied_threshold_errors (estimate : List ℚ → ℚ)
    (p : EllParams) (t0 d_t d_dm a : ℚ) (regions : List EllRegion) :
    searchCandidatesEll estimate p t0 d_t d_dm (some a) regions =
      Except.error "UnboundLocalError: amplitudes" := rfl

/-- C4 counterexample: a fit satisfying all five conditions of the claim
(with `theta` in degrees mod 180 equal to `theta_min`, and a negative
`x_stddev_min`) that the code rejects: the code compares against
`abs(x_stddev)` and uses a strict open theta interval. -/
theorem acceptEll_claim_counterexample :
    AcceptEllSpec ⟨-5, 0, 1, 10, 20⟩ 0 ⟨5, 0, 0, 3, 1, 1, 10⟩ ∧
    acceptEll ⟨-5, 0, 1, 10, 20⟩ 0 ⟨5, 0, 0, 3, 1, 1, 10⟩ = false := by
  have hm : pymod 10 180 = 10 := by
    unfold pymod
    norm_num
  constructor
  · refine ⟨?_, ?_, ?_, ?_, ?_, ?_⟩
    · show |(3 : ℚ)| > -5
      rw [abs_of_pos (by norm_num : (0 : ℚ) < 3)]
      norm_num
    · show |(3 : ℚ) * 1| > 0
      rw [abs_of_pos (by norm_num : (0 : ℚ) < 3 * 1)]
      norm_num
    · show |(1 : ℚ) / 3| < 1
      rw [abs_of_pos (by norm_num : (0 : ℚ) < 1 / 3)]
      norm_num
    · show (5 : ℚ) > 0
      norm_num
    · show (10 : ℚ) ≤ pymod 10 180
      rw [hm]
    · show pymod 10 180 ≤ 20
      rw [hm]
      norm_num
  · simp only [acceptEll, hm]
    have h1 : ¬ (|(3 : ℚ)| > |(-5 : ℚ)|) := by
      rw [abs_of_pos (by norm_num : (0:ℚ) < 3), abs_of_neg (by norm_num : (-5:ℚ) < 0)]
      norm_num
    simp [h1]

/-- C4 (amended): the code accepts a successfully fitted region iff
`|x_stddev| > |x_stddev_min|`, `|x_stddev * cos(theta)| > x_cos_theta_min`,
`|y_stddev / x_stddev| < y_to_x_stddev_max`, `amplitude > threshold`, and
the angle in degrees taken modulo 180 lies strictly inside the open
interval `(theta_min, theta_max)`. -/
theorem acceptEll_iff (p : EllParams) (thr : ℚ) (g : GaussFit) :
    acceptEll p thr g = true ↔
      (|g.x_stddev| > |p.x_stddev_min| ∧
       |g.x_stddev * g.thetaCos| > p.x_cos_theta_min ∧
       |g.y_stddev / g.x_stddev| < p.y_to_x_stddev_max ∧
       g.amplitude > thr ∧
       p.theta_min < pymod g.thetaDeg 180 ∧
       pymod g.thetaDeg 180 < p.theta_max) := by
  simp [acceptEll, and_assoc]

/-- C8: the ranking of `search_candidates` emits the accepted regions
sorted descending by bounding-box height `dy`, ties broken descending by
width `dx`; on the three regions with `(height, width) = (10, 2), (5, 8),
(10, 5)` it yields the order `(10, 5), (10, 2), (5, 8)`. -/
theorem rank_desc_and_instance :
    (∀ objs : List SizedObj,
      List.Pairwise (fun a b => lexLe b a) (rankObjs objs)) ∧
    rankObjs [⟨1, 2, 10⟩, ⟨2, 8, 5⟩, ⟨3, 5, 10⟩] =
      [⟨3, 5, 10⟩, ⟨1, 2, 10⟩, ⟨2, 8, 5⟩] := by
  constructor
  · intro objs
    exact List.pairwise_reverse.mpr (List.sorted_insertionSort lexLe objs)
  · decide

/-- Helper: a list of length at most one has all its elements equal. -/
theorem all_eq_of_length_le_one {α : Type} {l : List α} (h : l.length ≤ 1) :
    ∀ a ∈ l, ∀ b ∈ l, a = b := by
  match l with
  | [] => simp
  | [x] =>
      intro a ha b hb
      rw [List.mem_singleton] at ha hb
      rw [ha, hb]
  | x :: y :: rest => simp at h

/-- Helper: if all elements of a list are equal, its `dedup` has length at
most one. -/
theorem dedup_length_le_one_of_all_eq {α : Type} [DecidableEq α]
    {l : List α} (h : ∀ a ∈ l, ∀ b ∈ l, a = b) : l.dedup.length ≤ 1 := by
  match hd : l.dedup with
  | [] => simp
  | [x] => simp
  | x :: y :: rest =>
      have hx : x ∈ l.dedup := by rw [hd]; exact List.mem_cons_self x _
      have hy : y ∈ l.dedup := by rw [hd]; simp
      have hnd := List.nodup_dedup l
      rw [hd, List.nodup_cons] at hnd
      have hxy : x ≠ y := fun he => hnd.1 (he ▸ List.mem_cons_self y rest)
      exact absurd (h x (List.mem_dedup.mp hx) y (List.mem_dedup.mp hy)) hxy

/-- C1 counterexample: on the patch `[0, 1]` (exactly two distinct
intensity levels) the background subtraction produces `[0, 0]` — no
positive intensity remains — yet `fit_elliplse` does not raise
`NoIntensityRegionException`: the claimed equivalence fails. -/
theorem fit_raise_iff_no_positive_counterexample :
    ¬ (RaisesNoIntensity [0, 1] ↔ NoPositiveAfterSub [0, 1]) := by
  have hs : subClip [0, 1] = some [0, 0] := by
    simp [subClip, uniqueSorted, List.insertionSort, List.orderedInsert]
  intro h
  have hnp : NoPositiveAfterSub [0, 1] := by
    intro l hl v hv
    rw [hs] at hl
    have hl2 : ([0, 0] : List ℚ) = l := Option.some.inj hl
    rw [← hl2] at hv
    have hv0 : v = 0 := by simpa using hv
    exact le_of_eq hv0
  have hraise : RaisesNoIntensity [0, 1] := h.mpr hnp
  rw [RaisesNoIntensity, hs] at hraise
  exact Option.noConfusion hraise

/-- C1 (amended): `fit_elliplse` raises `NoIntensityRegionException` iff
the region's intensity patch has fewer than two distinct intensity
values, i.e. iff the patch is constant; a patch with two or more distinct
levels never raises, even when no positive intensity remains after
subtracting the second-smallest level and clipping. -/
theorem fit_raise_iff_constant (patch : List ℚ) :
    RaisesNoIntensity patch ↔ ∀ a ∈ patch, ∀ b ∈ patch, a = b := by
  rw [RaisesNoIntensity, subClip, Option.map_eq_none', List.getElem?_eq_none_iff]
  have hlen : (uniqueSorted patch).length = patch.dedup.length :=
    (List.perm_insertionSort _ _).length_eq
  rw [hlen]
  constructor
  · intro h a ha b hb
    exact all_eq_of_length_le_one h a (List.mem_dedup.mpr ha) b
      (List.mem_dedup.mpr hb)
  · exact dedup_length_le_one_of_all_eq

/-- C2 counterexample: with DBSCAN labels `[-1, -1, -1, 0, 0]` the
outlier group (label `-1`) is the largest label group, and
`unique[np.argmax(unique_counts)]` selects it: the amplitudes handed to
the Rayleigh fit are the outlier amplitudes, not those of the largest
non-outlier cluster (label `0`). -/
theorem chosenLabel_counterexample :
    chosenLabel [-1, -1, -1, 0, 0] = some (-1) ∧
    largestClusterData [-1, -1, -1, 0, 0] [10, 11, 12, 1, 2] =
      [10, 11, 12] := by
  constructor
  · decide
  · decide

/-- C2 (amended): the cluster whose amplitudes are used for the Rayleigh
fit is the label group of greatest cardinality among all DBSCAN labels,
the outlier label `-1` included — on any nonempty label vector the chosen
label occurs in the vector and its count is maximal. -/
theorem chosenLabel_is_modal_label (labels : List ℤ) (h : labels ≠ []) :
    ∃ c, chosenLabel labels = some c ∧ c ∈ labels ∧
      ∀ m ∈ labels, labels.count m ≤ labels.count c := by
  have hu : (uniqueLabels labels).length = labels.dedup.length :=
    (List.perm_insertionSort _ _).length_eq
  have hdne : labels.dedup ≠ [] := fun hd => h ((List.dedup_eq_nil labels).mp hd)
  have hulen : 0 < (uniqueLabels labels).length := by
    rw [hu]
    exact List.length_pos.mpr hdne
  have hcne : (uniqueLabels labels).map (fun l => labels.count l) ≠ [] := by
    intro hc
    rw [List.map_eq_nil_iff] at hc
    rw [hc] at hulen
    simp at hulen
  obtain ⟨m, hm⟩ : ∃ m : ℕ,
      ((uniqueLabels labels).map (fun l => labels.count l)).maximum = (m : WithBot ℕ) := by
    cases hmax : ((uniqueLabels labels).map (fun l => labels.count l)).maximum with
    | bot => exact absurd (List.maximum_eq_bot.mp hmax) hcne
    | coe m => exact ⟨m, rfl⟩
  have hmmem : m ∈ (uniqueLabels labels).map (fun l => labels.count l) :=
    List.maximum_mem hm
  have hidx : ((uniqueLabels labels).map (fun l => labels.count l)).indexOf m <
      ((uniqueLabels labels).map (fun l => labels.count l)).length :=
    List.indexOf_lt_length.mpr hmmem
  have hargmax : argmaxIdx ((uniqueLabels labels).map (fun l => labels.count l)) =
      ((uniqueLabels labels).map (fun l => labels.count l)).indexOf m := by
    rw [argmaxIdx, hm]
    rfl
  have hlenmap : ((uniqueLabels labels).map (fun l => labels.count l)).length =
      (uniqueLabels labels).length := List.length_map _ _
  have hidx2 : ((uniqueLabels labels).map (fun l => labels.count l)).indexOf m <
      (uniqueLabels labels).length := hlenmap ▸ hidx
  refine ⟨(uniqueLabels labels)[((uniqueLabels labels).map
    (fun l => labels.count l)).indexOf m], ?_, ?_, ?_⟩
  · rw [chosenLabel, hargmax]
    exact List.getElem?_eq_getElem hidx2
  · have : (uniqueLabels labels)[((uniqueLabels labels).map
        (fun l => labels.count l)).indexOf m] ∈ uniqueLabels labels :=
      List.getElem_mem _
    exact List.mem_dedup.mp ((List.perm_insertionSort _ _).mem_iff.mp this)
  · intro m2 hm2
    have hm2u : m2 ∈ uniqueLabels labels :=
      (List.perm_insertionSort _ _).mem_iff.mpr (List.mem_dedup.mpr hm2)
    obtain ⟨j, hj, hj2⟩ := List.mem_iff_getElem.mp hm2u
    have hjm : j < ((uniqueLabels labels).map (fun l => labels.count l)).length := by
      rw [hlenmap]
      exact hj
    have hcj : ((uniqueLabels labels).map (fun l => labels.count l))[j] =
        labels.count m2 := by
      rw [List.getElem_map]
      rw [hj2]
    have hle : ((uniqueLabels labels).map (fun l => labels.count l))[j] ≤ m :=
      List.le_maximum_of_mem (List.getElem_mem _) hm
    have hcm : ((uniqueLabels labels).map (fun l => labels.count l))[((uniqueLabels
        labels).map (fun l => labels.count l)).indexOf m] = m :=
      List.getElem_indexOf hidx
    have hcc : ((uniqueLabels labels).map (fun l => labels.count l))[((uniqueLabels
        labels).map (fun l => labels.count l)).indexOf m] =
        labels.count ((uniqueLabels labels)[((uniqueLabels labels).map
          (fun l => labels.count l)).indexOf m]) := by
      rw [List.getElem_map]
    rw [← hcj, ← hcc]
    rw [hcm]
    exact hle

/-- C2 witness: the amended statement at the concrete label vector
`[-1, 1, 1]`, where the non-outlier label `1` is the modal label. -/
theorem chosenLabel_is_modal_label_witness :
    ([-1, 1, 1] : List ℤ) ≠ [] ∧
    ∃ c, chosenLabel [-1, 1, 1] = some c ∧ c ∈ ([-1, 1, 1] : List ℤ) ∧
      ∀ m ∈ ([-1, 1, 1] : List ℤ),
        List.count m [-1, 1, 1] ≤ List.count c [-1, 1, 1] :=
  ⟨by decide, chosenLabel_is_modal_label [-1, 1, 1] (by decide)⟩

/-- Helper: the running first-maximum scan returns a position of the
scanned list (or the seed), whose intensity dominates every scanned
position and the seed. -/
theorem foldl_bestOf_spec (img : List (List ℚ)) :
    ∀ (ps : List (ℕ × ℕ)) (acc : Option (ℕ × ℕ)) (r : ℕ × ℕ),
      ps.foldl (bestOf img) acc = some r →
      (r ∈ ps ∨ acc = some r) ∧
      (∀ q ∈ ps, pixAt img q.1 q.2 ≤ pixAt img r.1 r.2) ∧
      (∀ a, acc = some a → pixAt img a.1 a.2 ≤ pixAt img r.1 r.2) := by
  intro ps
  induction ps with
  | nil =>
      intro acc r h
      rw [List.foldl_nil] at h
      refine ⟨Or.inr h, by simp, fun a ha => ?_⟩
      rw [h] at ha
      rw [Option.some.inj ha]
  | cons p rest ih =>
      intro acc r h
      rw [List.foldl_cons] at h
      obtain ⟨h1, h2, h3⟩ := ih (bestOf img acc p) r h
      match acc with
      | none =>
          refine ⟨?_, ?_, ?_⟩
          · rcases h1 with h1 | h1
            · exact Or.inl (List.mem_cons_of_mem p h1)
            · exact Or.inl (Option.some.inj h1 ▸ List.mem_cons_self p rest)
          · intro q hq
            rcases List.mem_cons.mp hq with hq | hq
            · exact hq ▸ h3 p rfl
            · exact h2 q hq
          · intro a ha
            exact Option.noConfusion ha
      | some q0 =>
          by_cases hgt : pixAt img p.1 p.2 > pixAt img q0.1 q0.2
          · have hb : bestOf img (some q0) p = some p := by
              rw [bestOf]
              rw [if_pos hgt]
            rw [hb] at h1 h3
            refine ⟨?_, ?_, ?_⟩
            · rcases h1 with h1 | h1
              · exact Or.inl (List.mem_cons_of_mem p h1)
              · exact Or.inl (Option.some.inj h1 ▸ List.mem_cons_self p rest)
            · intro q hq
              rcases List.mem_cons.mp hq with hq | hq
              · exact hq ▸ h3 p rfl
              · exact h2 q hq
            · intro a ha
              have ha0 : a = q0 := (Option.some.inj ha).symm
              exact le_trans (ha0 ▸ le_of_lt hgt) (h3 p rfl)
          · have hb : bestOf img (some q0) p = some q0 := by
              rw [bestOf]
              rw [if_neg hgt]
            rw [hb] at h1 h3
            refine ⟨?_, ?_, ?_⟩
            · rcases h1 with h1 | h1
              · exact Or.inl (List.mem_cons_of_mem p h1)
              · exact Or.inr h1
            · intro q hq
              rcases List.mem_cons.mp hq with hq | hq
              · exact le_trans (hq ▸ le_of_not_lt hgt) (h3 q0 rfl)
              · exact h2 q hq
            · intro a ha
              exact h3 a ha

/-- C7: a labelled region passes the size-threshold classification iff
its bounding-box height exceeds `n_d_y` and its width exceeds `n_d_x`
(both strictly), and the peak position reported by the label-indexed
maximum-position query is a pixel of the region whose intensity is
maximal within the region. -/
theorem sized_accept_and_peak (objs : List SizedObj) (n_d_x n_d_y : ℕ)
    (o : SizedObj) (img : List (List ℚ)) (labeled : List (List ℕ))
    (lab : ℕ) (pk : ℕ × ℕ)
    (hpk : maximumPosition img labeled lab = some pk) :
    (o ∈ acceptSized n_d_x n_d_y objs ↔
      o ∈ objs ∧ o.dy > n_d_y ∧ o.dx > n_d_x) ∧
    pk ∈ labelPositions labeled lab ∧
    ∀ q ∈ labelPositions labeled lab,
      pixAt img q.1 q.2 ≤ pixAt img pk.1 pk.2 := by
  obtain ⟨h1, h2, _⟩ := foldl_bestOf_spec img (labelPositions labeled lab) none pk hpk
  refine ⟨?_, ?_, h2⟩
  · rw [acceptSized, List.mem_filter]
    simp [and_assoc]
  · rcases h1 with h1 | h1
    · exact h1
    · exact Option.noConfusion h1

/-- C7 witness: the size filter and the maximum-position query on a
concrete 2-by-2 image whose label-1 region has its maximum at `(0, 1)`. -/
theorem sized_accept_and_peak_witness :
    maximumPosition [[1, 5], [2, 0]] [[1, 1], [1, 0]] 1 = some (0, 1) ∧
    ((⟨1, 3, 4⟩ : SizedObj) ∈ acceptSized 2 3 [⟨1, 3, 4⟩] ↔
      (⟨1, 3, 4⟩ : SizedObj) ∈ [(⟨1, 3, 4⟩ : SizedObj)] ∧
        (⟨1, 3, 4⟩ : SizedObj).dy > 3 ∧ (⟨1, 3, 4⟩ : SizedObj).dx > 2) ∧
    (0, 1) ∈ labelPositions [[1, 1], [1, 0]] 1 ∧
    ∀ q ∈ labelPositions [[1, 1], [1, 0]] 1,
      pixAt [[1, 5], [2, 0]] q.1 q.2 ≤ pixAt [[1, 5], [2, 0]] 0 1 :=
  ⟨by decide, sized_accept_and_peak [⟨1, 3, 4⟩] 2 3 ⟨1, 3, 4⟩
    [[1, 5], [2, 0]] [[1, 1], [1, 0]] 1 (0, 1) (by decide)⟩

/-- Helper: entry `t` of a row after the slice assignment on columns
`[c0, c1)`, with the row starting at absolute column `j`. -/
theorem getD_fillRowFrom (c0 c1 : ℕ) (v : ℚ) :
    ∀ (xs : List ℚ) (j t : ℕ),
      (fillRowFrom c0 c1 v j xs).getD t 0 =
        if c0 ≤ j + t ∧ j + t < c1 ∧ t < xs.length then v else xs.getD t 0 := by
  intro xs
  induction xs with
  | nil =>
      intro j t
      rw [fillRowFrom]
      simp
  | cons x xs ih =>
      intro j t
      cases t with
      | zero =>
          rw [fillRowFrom]
          simp only [List.getD_cons_zero, List.length_cons]
          have hiff : (c0 ≤ j ∧ j < c1) ↔
              (c0 ≤ j + 0 ∧ j + 0 < c1 ∧ 0 < xs.length + 1) := by omega
          rw [if_congr hiff rfl rfl]
      | succ t =>
          rw [fillRowFrom]
          simp only [List.getD_cons_succ, List.length_cons]
          rw [ih (j + 1) t]
          have hiff : (c0 ≤ j + 1 + t ∧ j + 1 + t < c1 ∧ t < xs.length) ↔
              (c0 ≤ j + (t + 1) ∧ j + (t + 1) < c1 ∧ t + 1 < xs.length + 1) := by
            omega
          rw [if_congr hiff rfl rfl]

/-- Helper: row `k` of an image after the slice assignment on the box
`bb`, with the image starting at absolute row `i`. -/
theorem getD_fillRowsFrom (bb : BBox) (v : ℚ) :
    ∀ (rows : List (List ℚ)) (i k : ℕ),
      (fillRowsFrom bb v i rows).getD k [] =
        if bb.r0 ≤ i + k ∧ i + k < bb.r1 ∧ k < rows.length then
          fillRowFrom bb.c0 bb.c1 v 0 (rows.getD k [])
        else rows.getD k [] := by
  intro rows
  induction rows with
  | nil =>
      intro i k
      rw [fillRowsFrom]
      simp
  | cons row rows ih =>
      intro i k
      cases k with
      | zero =>
          rw [fillRowsFrom]
          simp only [List.getD_cons_zero, List.length_cons]
          have hiff : (bb.r0 ≤ i ∧ i < bb.r1) ↔
              (bb.r0 ≤ i + 0 ∧ i + 0 < bb.r1 ∧ 0 < rows.length + 1) := by omega
          rw [if_congr hiff rfl rfl]
      | succ k =>
          rw [fillRowsFrom]
          simp only [List.getD_cons_succ, List.length_cons]
          rw [ih (i + 1) k]
          have hiff : (bb.r0 ≤ i + 1 + k ∧ i + 1 + k < bb.r1 ∧ k < rows.length) ↔
              (bb.r0 ≤ i + (k + 1) ∧ i + (k + 1) < bb.r1 ∧
                k + 1 < rows.length + 1) := by
            omega
          rw [if_congr hiff rfl rfl]

/-- Helper: inside the box (and inside the image bounds) the slice
assignment writes `v`. -/
theorem pixAt_fillBBox_inside (img : List (List ℚ)) (bb : BBox) (v : ℚ)
    (i j : ℕ) (hr0 : bb.r0 ≤ i) (hr1 : i < bb.r1) (hri : i < img.length)
    (hc0 : bb.c0 ≤ j) (hc1 : j < bb.c1)
    (hcj : j < (img.getD i []).length) :
    pixAt (fillBBox img bb v) i j = v := by
  rw [pixAt, fillBBox, getD_fillRowsFrom]
  rw [if_pos (by omega : bb.r0 ≤ 0 + i ∧ 0 + i < bb.r1 ∧ i < img.length)]
  rw [getD_fillRowFrom]
  rw [if_pos (by omega : bb.c0 ≤ 0 + j ∧ 0 + j < bb.c1 ∧
    j < (img.getD i []).length)]

/-- Helper: outside the box the slice assignment changes nothing. -/
theorem pixAt_fillBBox_outside (img : List (List ℚ)) (bb : BBox) (v : ℚ)
    (i j : ℕ) (h : ¬ InBBox bb i j) :
    pixAt (fillBBox img bb v) i j = pixAt img i j := by
  rw [InBBox] at h
  rw [pixAt, pixAt, fillBBox, getD_fillRowsFrom]
  by_cases hr : bb.r0 ≤ 0 + i ∧ 0 + i < bb.r1 ∧ i < img.length
  · rw [if_pos hr, getD_fillRowFrom]
    rw [if_neg (by omega : ¬ (bb.c0 ≤ 0 + j ∧ 0 + j < bb.c1 ∧
      j < (img.getD i []).length))]
  · rw [if_neg hr]

/-- Helper: a pixel outside every box of a region list is untouched by
the whole removal fold. -/
theorem foldl_fill_outside (i j : ℕ) :
    ∀ (ps : List RegionProp) (img : List (List ℚ)),
      (∀ p ∈ ps, ¬ InBBox p.bbox i j) →
      pixAt (ps.foldl (fun im p => fillBBox im p.bbox (npMean im)) img) i j =
        pixAt img i j := by
  intro ps
  induction ps with
  | nil =>
      intro img _
      rw [List.foldl_nil]
  | cons p rest ih =>
      intro img hp
      rw [List.foldl_cons]
      rw [ih _ (fun q hq => hp q (List.mem_cons_of_mem p hq))]
      exact pixAt_fillBBox_outside img p.bbox (npMean img) i j
        (hp p (List.mem_cons_self p rest))

/-- C10: the in-place mutation of the input time–DM image by the
preprocessor is confined to the bounding boxes of the regions whose pixel
count exceeds `max_region_size`: every pixel outside all those boxes is
unchanged, and when no oversized region exists the input image is left
entirely unchanged. -/
theorem preprocess_mutation_confined (maxSize : ℕ) (props : List RegionProp)
    (img : List (List ℚ)) (i j : ℕ)
    (h : ∀ p ∈ props, maxSize < p.area → ¬ InBBox p.bbox i j) :
    pixAt (filterBigRegions maxSize props img) i j = pixAt img i j ∧
    ((∀ p ∈ props, p.area ≤ maxSize) →
      filterBigRegions maxSize props img = img) := by
  constructor
  · rw [filterBigRegions]
    apply foldl_fill_outside
    intro p hp
    rw [bigProps, List.mem_filter] at hp
    exact h p hp.1 (by simpa using hp.2)
  · intro hsmall
    rw [filterBigRegions]
    have hb : bigProps maxSize props = [] := by
      rw [bigProps, List.filter_eq_nil_iff]
      intro p hp
      have := hsmall p hp
      simp only [decide_eq_true_eq]
      omega
    rw [hb, List.foldl_nil]

/-- C10 witness: a single undersized region leaves a concrete image
unchanged, pixel by pixel and as a whole. -/
theorem preprocess_mutation_confined_witness :
    (∀ p ∈ [(⟨⟨0, 1, 0, 1⟩, 2⟩ : RegionProp)],
      (10 : ℕ) < p.area → ¬ InBBox p.bbox 0 0) ∧
    (pixAt (filterBigRegions 10 [⟨⟨0, 1, 0, 1⟩, 2⟩] [[1, 2]]) 0 0 =
        pixAt [[1, 2]] 0 0 ∧
      ((∀ p ∈ [(⟨⟨0, 1, 0, 1⟩, 2⟩ : RegionProp)], p.area ≤ 10) →
        filterBigRegions 10 [⟨⟨0, 1, 0, 1⟩, 2⟩] [[1, 2]] = [[1, 2]])) :=
  ⟨by decide, preprocess_mutation_confined 10 [⟨⟨0, 1, 0, 1⟩, 2⟩] [[1, 2]] 0 0
    (by decide)⟩

/-- C6 (amended): when exactly one region is oversized, its bounding box
in the original image is overwritten with the image's global mean; when
several are, each box receives the mean of the partially overwritten
image at its turn (the mean is recomputed inside the loop), not
necessarily the original global mean. -/
theorem big_region_overwrite_single (maxSize : ℕ) (props : List RegionProp)
    (img : List (List ℚ)) (p : RegionProp)
    (hp : bigProps maxSize props = [p]) :
    filterBigRegions maxSize props img = fillBBox img p.bbox (npMean img) ∧
    ∀ i j, p.bbox.r0 ≤ i → i < p.bbox.r1 → i < img.length →
      p.bbox.c0 ≤ j → j < p.bbox.c1 → j < (img.getD i []).length →
      pixAt (filterBigRegions maxSize props img) i j = npMean img := by
  have h1 : filterBigRegions maxSize props img =
      fillBBox img p.bbox (npMean img) := by
    rw [filterBigRegions, hp, List.foldl_cons, List.foldl_nil]
  refine ⟨h1, fun i j h2 h3 h4 h5 h6 h7 => ?_⟩
  rw [h1]
  exact pixAt_fillBBox_inside img p.bbox (npMean img) i j h2 h3 h4 h5 h6 h7

/-- C6 witness: a single oversized region over a one-pixel image is
overwritten with the image's global mean. -/
theorem big_region_overwrite_single_witness :
    bigProps 0 [(⟨⟨0, 1, 0, 1⟩, 1⟩ : RegionProp)] = [⟨⟨0, 1, 0, 1⟩, 1⟩] ∧
    (filterBigRegions 0 [⟨⟨0, 1, 0, 1⟩, 1⟩] [[7]] =
        fillBBox [[7]] (⟨0, 1, 0, 1⟩ : BBox) (npMean [[7]]) ∧
      ∀ i j, (0 : ℕ) ≤ i → i < 1 → i < ([[(7 : ℚ)]] : List (List ℚ)).length →
        (0 : ℕ) ≤ j → j < 1 →
        j < (([[(7 : ℚ)]] : List (List ℚ)).getD i []).length →
        pixAt (filterBigRegions 0 [⟨⟨0, 1, 0, 1⟩, 1⟩] [[7]]) i j =
          npMean [[7]]) :=
  ⟨by decide, big_region_overwrite_single 0 [⟨⟨0, 1, 0, 1⟩, 1⟩] [[7]]
    ⟨⟨0, 1, 0, 1⟩, 1⟩ (by decide)⟩

/-- C6 counterexample: with two oversized single-pixel regions on the
image `[[0, 4]]` the loop fills the first box with the original global
mean `2`, but the second box with `3`, the mean of the partially
overwritten image `[[2, 4]]` — not with the original global mean. -/
theorem big_region_mean_counterexample :
    filterBigRegions 0 [⟨⟨0, 1, 0, 1⟩, 1⟩, ⟨⟨0, 1, 1, 2⟩, 1⟩] [[0, 4]] =
      [[2, 3]] ∧
    npMean [[0, 4]] = 2 ∧
    pixAt [[2, 3]] 0 1 ≠ npMean [[0, 4]] := by
  have hmean : npMean [[(0 : ℚ), 4]] = 2 := by
    rw [npMean, imgSum, imgCount]
    norm_num
  have hmean2 : npMean [[(2 : ℚ), 4]] = 3 := by
    rw [npMean, imgSum, imgCount]
    norm_num
  have hstep1 : fillBBox [[(0 : ℚ), 4]] ⟨0, 1, 0, 1⟩ 2 = [[2, 4]] := by
    norm_num [fillBBox, fillRowsFrom, fillRowFrom]
  have hbig : bigProps 0 [(⟨⟨0, 1, 0, 1⟩, 1⟩ : RegionProp), ⟨⟨0, 1, 1, 2⟩, 1⟩] =
      [⟨⟨0, 1, 0, 1⟩, 1⟩, ⟨⟨0, 1, 1, 2⟩, 1⟩] := by decide
  refine ⟨?_, hmean, ?_⟩
  · rw [filterBigRegions, hbig, List.foldl_cons, List.foldl_cons, List.foldl_nil]
    dsimp only
    rw [hmean, hstep1, hmean2]
    norm_num [fillBBox, fillRowsFrom, fillRowFrom]
  · rw [hmean]
    decide
